import Mathlib

/-!
Verification of the medical-codex-pipeline repository.

Text values are embedded as `List Char` (`Str`); Python string operations
(`str.strip`, `str.upper`, `str.title`, substring search, `re.sub(r"\D", "")`)
are translated into structural list functions.  Data frames are embedded as
lists of rows whose cells are `Option Str` (`none` models a pandas missing
value, mirroring `NaN`); HTTP traffic is embedded as explicit response data
fed to the acquisition routine.
-/

/-- Text values: Python strings as lists of characters. -/
abbrev Str := List Char

/-- Characters removed by Python `str.strip()` (ASCII whitespace:
space, tab, newline, carriage return, vertical tab, form feed). -/
def isSpaceChar (c : Char) : Bool :=
  c.toNat = 32 || c.toNat = 9 || c.toNat = 10 || c.toNat = 13 ||
  c.toNat = 11 || c.toNat = 12

/-- ASCII decimal digit, the `\d` class used by the source regexes. -/
def isDigitCh (c : Char) : Bool := 48 ≤ c.toNat && c.toNat ≤ 57

/-- ASCII lowercase letter. -/
def isLowerCh (c : Char) : Bool := 97 ≤ c.toNat && c.toNat ≤ 122

/-- ASCII uppercase letter. -/
def isUpperCh (c : Char) : Bool := 65 ≤ c.toNat && c.toNat ≤ 90

/-- ASCII letter (the cased characters appearing in the data). -/
def isAlphaCh (c : Char) : Bool := isUpperCh c || isLowerCh c

/-- Python `str.upper` on a single ASCII character. -/
def toUpperCh (c : Char) : Char :=
  if isLowerCh c then Char.ofNat (c.toNat - 32) else c

/-- Python `str.lower` on a single ASCII character. -/
def toLowerCh (c : Char) : Char :=
  if isUpperCh c then Char.ofNat (c.toNat + 32) else c

/-- Python `str.upper`. -/
def upperStr (s : Str) : Str := s.map toUpperCh

/-- Python `str.lower`. -/
def lowerStr (s : Str) : Str := s.map toLowerCh

/-- Python `str.strip()`: drop leading and trailing whitespace. -/
def strip (s : Str) : Str :=
  ((s.dropWhile isSpaceChar).reverse.dropWhile isSpaceChar).reverse

/-- How Python `str.title` maps one character: uppercased when it is a
letter starting a word (previous character not cased), lowercased when a
letter inside a word, unchanged otherwise. -/
def titleChar (prev : Bool) (c : Char) : Char :=
  if isAlphaCh c then (if prev then toLowerCh c else toUpperCh c) else c

/-- One pass of Python `str.title`: the Boolean records whether the
previous character was cased (alphabetic). -/
def pyTitleAux : Bool → Str → Str
  | _, [] => []
  | prev, c :: cs => titleChar prev c :: pyTitleAux (isAlphaCh c) cs

/-- Python / pandas `str.title`: first letter of each word uppercased,
remaining letters lowercased. -/
def pyTitle (s : Str) : Str := pyTitleAux false s

/-- Boolean list-prefix test. -/
def isPreB : Str → Str → Bool
  | [], _ => true
  | _ :: _, [] => false
  | a :: as, b :: bs => a = b && isPreB as bs

/-- Python `pat in s`: substring containment. -/
def containsSub (pat : Str) : Str → Bool
  | [] => pat.isEmpty
  | c :: rest => isPreB pat (c :: rest) || containsSub pat rest

/-- Python `s.endswith(suf)`. -/
def endsWithB (s suf : Str) : Bool := isPreB suf.reverse s.reverse

/-- `re.sub(r"\D", "", s)`: keep only the decimal digits of `s`. -/
def stripNonDigits (s : Str) : Str := s.filter isDigitCh

/-- `int(ch)` for a digit character. -/
def digitVal (c : Char) : Nat := c.toNat - 48

/-- pandas `astype(str)` on one cell: a missing value prints as `"nan"`. -/
def cellStr (c : Option Str) : Str :=
  match c with
  | none => ['n', 'a', 'n']
  | some s => s

/-! ## NPI check digit (src/scripts/npi_processor.py) -/

/-- The alternating-position sum inside `luhn_check_digit`: `idx` is the
0-based position from the left; a digit is doubled (and reduced by 9 when
above 9) exactly when `idx % 2 = parity`. -/
def luhnSum (parity : Nat) : Nat → List Nat → Nat
  | _, [] => 0
  | idx, d :: rest =>
    (if idx % 2 = parity then (if d * 2 > 9 then d * 2 - 9 else d * 2) else d) +
      luhnSum parity (idx + 1) rest

/-- `luhn_check_digit(number_without_check)`: digits are taken left to
right, `parity = (len + 1) % 2`, and the check digit is
`(10 - total % 10) % 10`. -/
def luhn_check_digit (s : Str) : Nat :=
  let digits := s.map digitVal
  (10 - (luhnSum ((digits.length + 1) % 2) 0 digits) % 10) % 10

/-- A Python value passed to `is_valid_npi`: either a string or any
non-string value (the `isinstance(npi_str, str)` guard). -/
inductive PyVal where
  | str (s : Str)
  | nonstr
deriving DecidableEq

/-- `is_valid_npi`: non-strings are rejected; otherwise non-digits are
stripped, the remainder must match `^\d{10}$` (after stripping, all
characters are digits, so the regex is a length test), and the Luhn check
digit of `"80840"` + first nine digits must equal the last digit. -/
def is_valid_npi : PyVal → Bool
  | .nonstr => false
  | .str s =>
    let digits := stripNonDigits s
    if digits.length = 10 then
      luhn_check_digit (['8', '0', '8', '4', '0'] ++ digits.take 9) =
        digitVal (digits.getLastD '0')
    else false

/-- Spec-side Luhn sum, stated as the spec words it: positions are counted
from the rightmost digit moving left (`j` = distance from the right end of
the whole string), and the digit at distance `j` is doubled exactly when
`j` is even.  The list argument is the reversed digit string. -/
def luhnSumFromRight : Nat → List Nat → Nat
  | _, [] => 0
  | j, d :: rest =>
    (if j % 2 = 0 then (if d * 2 > 9 then d * 2 - 9 else d * 2) else d) +
      luhnSumFromRight (j + 1) rest

/-- Spec-side check digit: Luhn over the digits right-to-left. -/
def luhnCheckFromRight (s : Str) : Nat :=
  (10 - (luhnSumFromRight 0 (s.map digitVal).reverse) % 10) % 10

/-! ## The Acquirer: ensure_file (src/utils/common_functions.py) -/

/-- A filesystem path, split as pathlib sees it: everything up to the last
extension (`stem`, directories included) and the extension itself.
`with_suffix` replaces the `suffix` component. -/
structure Pth where
  stem : Str
  suffix : Str
deriving DecidableEq

/-- A zip archive entry (`zipfile.ZipInfo`): name, uncompressed byte size,
and whether the entry is a directory. -/
structure ZMember where
  filename : Str
  file_size : Nat
  is_dir : Bool
deriving DecidableEq

/-- One HTTP response, as `ensure_file` consumes it.
`okStatus` is whether `raise_for_status()` passes (2xx/3xx),
`bodySize` is `len(resp.content)`, `contentType` the `Content-Type`
header, `zipEntries` is `some entries` when the body parses as a zip
archive (otherwise opening it raises `BadZipFile`), and `cdFilename` is
the filename extracted from the `Content-Disposition` header when the
source's regex matches it. -/
structure HttpResponse where
  okStatus : Bool
  bodySize : Nat
  contentType : Str
  zipEntries : Option (List ZMember)
  cdFilename : Option Str

/-- `pathlib.Path(name).suffix`: the extension of the final path
component; empty when the last dot is at the start or end of the name. -/
def extOf (name : Str) : Str :=
  let base := (name.reverse.takeWhile (fun c => c ≠ '/')).reverse
  let rb := base.reverse
  let j := (rb.takeWhile (fun c => c ≠ '.')).length
  if j = 0 || rb.length ≤ j + 1 then [] else '.' :: (rb.take j).reverse

/-- `".csv" / ".txt" / ".tsv"` test used by the nested `is_textual`. -/
def is_textual (name : Str) : Bool :=
  endsWithB (lowerStr name) ".csv".data || endsWithB (lowerStr name) ".txt".data ||
    endsWithB (lowerStr name) ".tsv".data

/-- The candidate list after the three filters of the extraction branch
(textual extension, include/prefer regex, exclude regex) and before the
empty-set fallback.  Regexes are embedded as the Boolean predicates their
`re.search` calls compute on a name. -/
def filteredCandidates (members : List ZMember)
    (prefer exclude : Option (Str → Bool)) : List ZMember :=
  let candidates := members.filter (fun zi => is_textual zi.filename)
  let candidates :=
    match prefer with
    | some p =>
      let preferred := candidates.filter (fun zi => p zi.filename)
      if preferred ≠ [] then preferred else candidates
    | none => candidates
  match exclude with
  | some q => candidates.filter (fun zi => !q zi.filename)
  | none => candidates

/-- The final candidate list: when the filters leave nothing, fall back to
every (non-directory) member. -/
def zipCandidates (members : List ZMember)
    (prefer exclude : Option (Str → Bool)) : List ZMember :=
  let c := filteredCandidates members prefer exclude
  if c = [] then members else c

/-- The running maximum of Python's `max` with a key: a later element
replaces the current best only when strictly larger, so the first of any
tie is kept. -/
def pyMax (a : ZMember) : List ZMember → ZMember
  | [] => a
  | zi :: rest => pyMax (if zi.file_size > a.file_size then zi else a) rest

/-- `max(candidates, key=lambda zi: zi.file_size)` (`none` on an empty
list, where Python would raise). -/
def maxBySize : List ZMember → Option ZMember
  | [] => none
  | x :: xs => some (pyMax x xs)

/-- What one successful download attempt produced: a zip extraction
(target path, bytes written = the chosen member's bytes, chosen member)
or a direct write of the response body. -/
inductive DLOutcome where
  | zipExtract (target : Pth) (written : Nat) (chosen : ZMember)
  | directWrite (target : Pth) (written : Nat)
deriving DecidableEq

/-- The body of one iteration of the download loop in `ensure_file`.
`none` is a failed attempt (every exception is caught by the loop):
network/timeout error (`resp = none`), non-2xx status
(`raise_for_status`), empty body, unreadable zip (`BadZipFile`), or a zip
with no file entries. -/
def processAttempt (url : Str) (raw : Pth)
    (prefer exclude : Option (Str → Bool)) :
    Option HttpResponse → Option DLOutcome
  | none => none
  | some resp =>
    if !resp.okStatus then none
    else if resp.bodySize = 0 then none
    else
      let is_zip := endsWithB (lowerStr url) ".zip".data ||
        containsSub "zip".data (lowerStr resp.contentType)
      if is_zip then
        match resp.zipEntries with
        | none => none
        | some entries =>
          let members := entries.filter (fun zi => !zi.is_dir)
          if members = [] then none
          else
            match maxBySize (zipCandidates members prefer exclude) with
            | none => none
            | some chosen =>
              let sfx := if extOf chosen.filename ≠ [] then extOf chosen.filename
                         else raw.suffix
              some (.zipExtract { stem := raw.stem, suffix := sfx }
                chosen.file_size chosen)
      else
        let target :=
          match resp.cdFilename with
          | some fn =>
            let suggested := extOf fn
            if suggested ≠ [] && suggested ≠ raw.suffix then
              { stem := raw.stem, suffix := suggested }
            else raw
          | none => raw
        some (.directWrite target resp.bodySize)

/-- The retry loop `for attempt in range(1, retries + 1)`: the list holds
the network outcome of each successive attempt (`responses.length` =
`retries`); the first attempt that processes successfully returns. -/
def firstSuccess (url : Str) (raw : Pth)
    (prefer exclude : Option (Str → Bool)) :
    List (Option HttpResponse) → Option DLOutcome
  | [] => none
  | r :: rs =>
    match processAttempt url raw prefer exclude r with
    | some o => some o
    | none => firstSuccess url raw prefer exclude rs

/-- `url = env_url or (url_override or "")` followed by the `if url:`
guard: the environment value wins when set and non-empty, then the
override when non-empty; an empty effective URL means no URL. -/
def effective_url (env url_override : Option Str) : Option Str :=
  let env_url := env.getD []
  let url := if env_url ≠ [] then env_url else url_override.getD []
  if url = [] then none else some url

/-- How a call to `ensure_file` ends: a download/extraction wrote a file,
the pre-existing local file was returned unchanged, or
`FileNotFoundError` was raised. -/
inductive EnsureResult where
  | downloaded (o : DLOutcome)
  | localFile (p : Pth)
  | notFound
deriving DecidableEq

/-- `ensure_file`: pick the effective URL, run the retry loop when one
exists, and otherwise (or when every attempt failed) fall back to the
local file when it exists, raising `FileNotFoundError` when it does not.
`localExists` is `raw_path.exists()`. -/
def ensure_file (raw : Pth) (env url_override : Option Str)
    (prefer exclude : Option (Str → Bool))
    (responses : List (Option HttpResponse)) (localExists : Bool) :
    EnsureResult :=
  match effective_url env url_override with
  | some u =>
    match firstSuccess u raw prefer exclude responses with
    | some o => .downloaded o
    | none => if localExists then .localFile raw else .notFound
  | none => if localExists then .localFile raw else .notFound

/-! ## Year-probing default URL resolvers -/

/-- Outcome of `requests.head` on one URL: an exception, or a response
whose `ok` flag is recorded. -/
inductive ProbeResult where
  | exn
  | status (ok : Bool)
deriving DecidableEq

/-- Decimal digits of a year, via structural fuel recursion. -/
def natToCharsAux : Nat → Nat → List Char → List Char
  | 0, _, acc => acc
  | fuel + 1, n, acc =>
    if n = 0 then acc
    else natToCharsAux fuel (n / 10) (Char.ofNat (48 + n % 10) :: acc)

/-- Python `f"{n}"` for a natural number. -/
def natToChars (n : Nat) : Str :=
  if n = 0 then ['0'] else natToCharsAux n n []

/-- The candidate ICD-10-CM URL for one year. -/
def icd10cm_url (year : Nat) : Str :=
  "https://ftp.cdc.gov/pub/Health_Statistics/NCHS/Publications/ICD10CM/".data ++
    natToChars year ++ "/icd10cm_codes_".data ++ natToChars year ++ ".txt".data

/-- `resolve_default_icd10cm_url`: HEAD-probe the current year's URL and
then the previous year's; return the first that probes ok, and when
neither does, return the current year's URL anyway. -/
def resolve_default_icd10cm_url (y : Nat) (probe : Str → ProbeResult) : Str :=
  match probe (icd10cm_url y) with
  | .status true => icd10cm_url y
  | _ =>
    match probe (icd10cm_url (y - 1)) with
    | .status true => icd10cm_url (y - 1)
    | _ => icd10cm_url y

/-- The candidate HCPCS URL for one year. -/
def hcpcs_url (year : Nat) : Str :=
  "https://www.cms.gov/files/zip/".data ++ natToChars year ++
    "-alpha-numeric-hcpcs-file.zip".data

/-- `resolve_default_hcpcs_url`: same probing scheme as ICD-10-CM. -/
def resolve_default_hcpcs_url (y : Nat) (probe : Str → ProbeResult) : Str :=
  match probe (hcpcs_url y) with
  | .status true => hcpcs_url y
  | _ =>
    match probe (hcpcs_url (y - 1)) with
    | .status true => hcpcs_url (y - 1)
    | _ => hcpcs_url y

/-! ## Cleaning stages (src/scripts/hcpcs_processor.py, npi_processor.py) -/

/-- A raw data-frame row restricted to the columns the cleaning stages
touch; a cell is `none` when pandas holds a missing value there. -/
structure RawRow where
  code : Option Str
  description : Option Str
deriving DecidableEq

/-- A normalized output row: `code, description, last_updated`. -/
structure CleanRow where
  code : Str
  description : Str
  last_updated : Str
deriving DecidableEq

/-- `basic_cleanup`: `code := astype(str).strip().upper()`,
`description := astype(str).strip().title()`. -/
def basic_cleanup (rows : List RawRow) : List RawRow :=
  rows.map (fun r =>
    { code := some (upperStr (strip (cellStr r.code))),
      description := some (pyTitle (strip (cellStr r.description))) })

/-- `drop_duplicates(subset=["code"])`: keep the first row of each code.
`seen` accumulates the codes already kept. -/
def dropDupAux (seen : List (Option Str)) : List RawRow → List RawRow
  | [] => []
  | r :: rs =>
    if r.code ∈ seen then dropDupAux seen rs
    else r :: dropDupAux (r.code :: seen) rs

/-- The HCPCS Level II code shape `^[A-V]\d{4}$`. -/
def isHcpcsCode (s : Str) : Bool :=
  match s with
  | [c1, c2, c3, c4, c5] =>
    (65 ≤ c1.toNat && c1.toNat ≤ 86) && isDigitCh c2 && isDigitCh c3 &&
      isDigitCh c4 && isDigitCh c5
  | _ => false

/-- `validate_hcpcs_data` (valid/invalid split): the code column is
stripped and uppercased, then rows are split by `HCPCS_PATTERN`. -/
def validate_hcpcs_data (rows : List RawRow) : List RawRow × List RawRow :=
  let upd := rows.map (fun r =>
    { r with code := some (upperStr (strip (cellStr r.code))) })
  (upd.filter (fun r => isHcpcsCode (r.code.getD [])),
   upd.filter (fun r => !isHcpcsCode (r.code.getD [])))

/-- `clean_hcpcs_data`: rename to `code`/`description` (the row type
already uses those names), `basic_cleanup`, `dropna` on both columns,
`drop_duplicates` on `code`, stamp `last_updated := ts`, and keep the
three output columns.  After `astype(str)` inside `basic_cleanup` no cell
is missing, so the `dropna` filter is over cells that are all present. -/
def clean_hcpcs_data (ts : Str) (rows : List RawRow) : List CleanRow :=
  let r1 := basic_cleanup rows
  let r2 := r1.filter (fun r => r.code.isSome && r.description.isSome)
  let r3 := dropDupAux [] r2
  r3.map (fun r =>
    { code := r.code.getD [], description := r.description.getD [],
      last_updated := ts })

/-- A raw NPI row: the `NPI` column cell, plus the description value that
`build_description` computes for this row from the organization/name
columns (a plain string; `build_description` always yields strings). -/
structure NpiRawRow where
  npi : Option Str
  builtDesc : Str
deriving DecidableEq

/-- The validity mask of `validate_npi_data` for one already-stripped NPI
cell: `fullmatch(r"\d{10}")` and `is_valid_npi`. -/
def npiValidMask (d : Str) : Bool :=
  (d.length = 10 && d.all isDigitCh) && is_valid_npi (.str d)

/-- `validate_npi_data`: the NPI column is `astype(str)` then
`str.replace(r"\D", "", regex=True)`; rows split by the combined
ten-digit and Luhn masks. -/
def validate_npi_data (rows : List NpiRawRow) :
    List NpiRawRow × List NpiRawRow :=
  let upd := rows.map (fun r =>
    { r with npi := some (stripNonDigits (cellStr r.npi)) })
  (upd.filter (fun r => npiValidMask (r.npi.getD [])),
   upd.filter (fun r => !npiValidMask (r.npi.getD [])))

/-- `clean_npi_data`: install the built description, rename the NPI
column to `code`, `basic_cleanup`, `dropna` on `code`, replace empty
descriptions by `pd.NA` and drop them, dedupe by `code`, stamp
`last_updated`, and keep the three output columns. -/
def clean_npi_data (ts : Str) (rows : List NpiRawRow) : List CleanRow :=
  let r0 : List RawRow := rows.map (fun r =>
    { code := r.npi, description := some r.builtDesc })
  let r1 := basic_cleanup r0
  let r2 := r1.filter (fun r => r.code.isSome)
  let r3 := r2.map (fun r =>
    { r with description :=
        match r.description with
        | some [] => none
        | d => d })
  let r4 := r3.filter (fun r => r.description.isSome)
  let r5 := dropDupAux [] r4
  r5.map (fun r =>
    { code := r.code.getD [], description := r.description.getD [],
      last_updated := ts })

/-! ## Sanity checks for the text layer -/

example : strip [' ', 'a', 'b', ' '] = ['a', 'b'] := by decide
example : upperStr ['a', 'B', '1'] = ['A', 'B', '1'] := by decide
example : pyTitle "hello world".data = "Hello World".data := by decide
example : containsSub "zip".data "application/zip".data = true := by decide
example : endsWithB "a.zip".data ".zip".data = true := by decide
example : is_valid_npi (.str "1234567893".data) = true := by decide
example : is_valid_npi (.str "1234567894".data) = false := by decide
example : is_valid_npi (.str "123-456-7893".data) = true := by decide
example : is_valid_npi .nonstr = false := by decide
example : luhn_check_digit "80840123456789".data = 3 := by decide
example : luhnCheckFromRight "80840123456789".data = 3 := by decide

/-! ## Character-level lemmas -/

theorem charOfNatVal (n : Nat) (h : n < 55296) : (Char.ofNat n).toNat = n := by
  have hv : n.isValidChar := Or.inl h
  simp [Char.ofNat, hv, Char.toNat, Char.ofNatAux, UInt32.toNat, UInt32.ofNatCore]

theorem toUpperCh_toNat (c : Char) :
    (toUpperCh c).toNat =
      if 97 ≤ c.toNat ∧ c.toNat ≤ 122 then c.toNat - 32 else c.toNat := by
  by_cases h : 97 ≤ c.toNat ∧ c.toNat ≤ 122
  · have hl : isLowerCh c = true := by
      simp [isLowerCh, h.1, h.2]
    rw [toUpperCh, if_pos hl, charOfNatVal (c.toNat - 32) (by omega), if_pos h]
  · have hl : isLowerCh c = false := by
      simp [isLowerCh]
      omega
    rw [toUpperCh, if_neg (by simp [hl]), if_neg h]

theorem toLowerCh_toNat (c : Char) :
    (toLowerCh c).toNat =
      if 65 ≤ c.toNat ∧ c.toNat ≤ 90 then c.toNat + 32 else c.toNat := by
  by_cases h : 65 ≤ c.toNat ∧ c.toNat ≤ 90
  · have hl : isUpperCh c = true := by
      simp [isUpperCh, h.1, h.2]
    rw [toLowerCh, if_pos hl, charOfNatVal (c.toNat + 32) (by omega), if_pos h]
  · have hl : isUpperCh c = false := by
      simp [isUpperCh]
      omega
    rw [toLowerCh, if_neg (by simp [hl]), if_neg h]

theorem isSpace_toUpperCh (c : Char) : isSpaceChar (toUpperCh c) = isSpaceChar c := by
  have h := toUpperCh_toNat c
  by_cases hc : 97 ≤ c.toNat ∧ c.toNat ≤ 122
  · rw [if_pos hc] at h
    have h1 : isSpaceChar (toUpperCh c) = false := by
      simp only [isSpaceChar, h, Bool.or_eq_false_iff, decide_eq_false_iff_not]
      omega
    have h2 : isSpaceChar c = false := by
      simp only [isSpaceChar, Bool.or_eq_false_iff, decide_eq_false_iff_not]
      omega
    rw [h1, h2]
  · rw [if_neg hc] at h
    simp only [isSpaceChar, h]

theorem isSpace_toLowerCh (c : Char) : isSpaceChar (toLowerCh c) = isSpaceChar c := by
  have h := toLowerCh_toNat c
  by_cases hc : 65 ≤ c.toNat ∧ c.toNat ≤ 90
  · rw [if_pos hc] at h
    have h1 : isSpaceChar (toLowerCh c) = false := by
      simp only [isSpaceChar, h, Bool.or_eq_false_iff, decide_eq_false_iff_not]
      omega
    have h2 : isSpaceChar c = false := by
      simp only [isSpaceChar, Bool.or_eq_false_iff, decide_eq_false_iff_not]
      omega
    rw [h1, h2]
  · rw [if_neg hc] at h
    simp only [isSpaceChar, h]

theorem isAlpha_toUpperCh (c : Char) : isAlphaCh (toUpperCh c) = isAlphaCh c := by
  have h := toUpperCh_toNat c
  by_cases hc : 97 ≤ c.toNat ∧ c.toNat ≤ 122
  · rw [if_pos hc] at h
    have h1 : isAlphaCh (toUpperCh c) = true := by
      simp only [isAlphaCh, isUpperCh, isLowerCh, h, Bool.or_eq_true, Bool.and_eq_true,
        decide_eq_true_eq]
      omega
    have h2 : isAlphaCh c = true := by
      simp only [isAlphaCh, isUpperCh, isLowerCh, Bool.or_eq_true, Bool.and_eq_true,
        decide_eq_true_eq]
      omega
    rw [h1, h2]
  · rw [if_neg hc] at h
    simp only [isAlphaCh, isUpperCh, isLowerCh, h]

theorem isAlpha_toLowerCh (c : Char) : isAlphaCh (toLowerCh c) = isAlphaCh c := by
  have h := toLowerCh_toNat c
  by_cases hc : 65 ≤ c.toNat ∧ c.toNat ≤ 90
  · rw [if_pos hc] at h
    have h1 : isAlphaCh (toLowerCh c) = true := by
      simp only [isAlphaCh, isUpperCh, isLowerCh, h, Bool.or_eq_true, Bool.and_eq_true,
        decide_eq_true_eq]
      omega
    have h2 : isAlphaCh c = true := by
      simp only [isAlphaCh, isUpperCh, isLowerCh, Bool.or_eq_true, Bool.and_eq_true,
        decide_eq_true_eq]
      omega
    rw [h1, h2]
  · rw [if_neg hc] at h
    simp only [isAlphaCh, isUpperCh, isLowerCh, h]

theorem toUpperCh_notLower (c : Char) (h : isLowerCh c = false) : toUpperCh c = c := by
  rw [toUpperCh, if_neg (by simp [h])]

theorem toLowerCh_notUpper (c : Char) (h : isUpperCh c = false) : toLowerCh c = c := by
  rw [toLowerCh, if_neg (by simp [h])]

theorem isLowerCh_eq_decide (c : Char) :
    isLowerCh c = decide (97 ≤ c.toNat ∧ c.toNat ≤ 122) := by
  simp [isLowerCh]

theorem isUpperCh_eq_decide (c : Char) :
    isUpperCh c = decide (65 ≤ c.toNat ∧ c.toNat ≤ 90) := by
  simp [isUpperCh]

theorem toUpperCh_idem (c : Char) : toUpperCh (toUpperCh c) = toUpperCh c := by
  apply toUpperCh_notLower
  rw [isLowerCh_eq_decide]
  have h := toUpperCh_toNat c
  by_cases hc : 97 ≤ c.toNat ∧ c.toNat ≤ 122
  · rw [if_pos hc] at h
    rw [h]
    simp only [decide_eq_false_iff_not]
    omega
  · rw [if_neg hc] at h
    rw [h]
    simp only [decide_eq_false_iff_not]
    omega

theorem toLowerCh_idem (c : Char) : toLowerCh (toLowerCh c) = toLowerCh c := by
  apply toLowerCh_notUpper
  rw [isUpperCh_eq_decide]
  have h := toLowerCh_toNat c
  by_cases hc : 65 ≤ c.toNat ∧ c.toNat ≤ 90
  · rw [if_pos hc] at h
    rw [h]
    simp only [decide_eq_false_iff_not]
    omega
  · rw [if_neg hc] at h
    rw [h]
    simp only [decide_eq_false_iff_not]
    omega

theorem isSpace_titleChar (prev : Bool) (c : Char) :
    isSpaceChar (titleChar prev c) = isSpaceChar c := by
  unfold titleChar
  by_cases ha : isAlphaCh c = true
  · rw [if_pos ha]
    cases prev
    · simp only [Bool.false_eq_true, if_false]
      exact isSpace_toUpperCh c
    · simp only [if_true]
      exact isSpace_toLowerCh c
  · rw [if_neg ha]

theorem isAlpha_titleChar (prev : Bool) (c : Char) :
    isAlphaCh (titleChar prev c) = isAlphaCh c := by
  unfold titleChar
  by_cases ha : isAlphaCh c = true
  · rw [if_pos ha]
    cases prev
    · simp only [Bool.false_eq_true, if_false]
      exact isAlpha_toUpperCh c
    · simp only [if_true]
      exact isAlpha_toLowerCh c
  · rw [if_neg ha]

theorem titleChar_idem (prev : Bool) (c : Char) :
    titleChar prev (titleChar prev c) = titleChar prev c := by
  by_cases ha : isAlphaCh c = true
  · have ha2 : isAlphaCh (titleChar prev c) = true := by
      rw [isAlpha_titleChar, ha]
    cases prev
    · have hb : titleChar false c = toUpperCh c := by
        unfold titleChar
        rw [if_pos ha]
        simp
      rw [hb]
      have hb2 : titleChar false (toUpperCh c) = toUpperCh (toUpperCh c) := by
        unfold titleChar
        rw [if_pos (by rw [isAlpha_toUpperCh]; exact ha)]
        simp
      rw [hb2, toUpperCh_idem]
    · have hb : titleChar true c = toLowerCh c := by
        unfold titleChar
        rw [if_pos ha]
        simp
      rw [hb]
      have hb2 : titleChar true (toLowerCh c) = toLowerCh (toLowerCh c) := by
        unfold titleChar
        rw [if_pos (by rw [isAlpha_toLowerCh]; exact ha)]
        simp
      rw [hb2, toLowerCh_idem]
  · have hb : titleChar prev c = c := by
      unfold titleChar
      rw [if_neg ha]
    rw [hb, hb]

theorem isDigit_notSpace (c : Char) (h : isDigitCh c = true) : isSpaceChar c = false := by
  simp only [isDigitCh, Bool.and_eq_true, decide_eq_true_eq] at h
  simp only [isSpaceChar, Bool.or_eq_false_iff, decide_eq_false_iff_not]
  omega

theorem toUpperCh_digit (c : Char) (h : isDigitCh c = true) : toUpperCh c = c := by
  apply toUpperCh_notLower
  simp only [isDigitCh, Bool.and_eq_true, decide_eq_true_eq] at h
  rw [isLowerCh_eq_decide]
  simp only [decide_eq_false_iff_not]
  omega

/-! ## strip / upper / title lemmas -/

theorem dropWhile_self {α : Type} (p : α → Bool) (l : List α) :
    (l.dropWhile p).dropWhile p = l.dropWhile p := by
  induction l with
  | nil => rfl
  | cons a t ih =>
    by_cases hp : p a = true
    · rw [List.dropWhile_cons_of_pos hp]
      exact ih
    · have hp' : p a = false := by simpa using hp
      rw [List.dropWhile_cons_of_neg (by simp [hp'])]
      rw [List.dropWhile_cons_of_neg (by simp [hp'])]

theorem length_dropWhile_le {α : Type} (p : α → Bool) (l : List α) :
    (l.dropWhile p).length ≤ l.length := by
  induction l with
  | nil => simp
  | cons a t ih =>
    by_cases hp : p a = true
    · rw [List.dropWhile_cons_of_pos hp]
      exact Nat.le_trans ih (by simp)
    · rw [List.dropWhile_cons_of_neg (by simpa using hp)]

theorem dropWhile_isSuffix {α : Type} (p : α → Bool) (l : List α) :
    l.dropWhile p <:+ l := by
  induction l with
  | nil => simp
  | cons a t ih =>
    by_cases hp : p a = true
    · rw [List.dropWhile_cons_of_pos hp]
      exact ih.trans (List.suffix_cons a t)
    · rw [List.dropWhile_cons_of_neg (by simpa using hp)]

theorem head_false_of_dropWhile_eq_self {α : Type} (p : α → Bool) (a : α) (x : List α)
    (h : List.dropWhile p (a :: x) = a :: x) : p a = false := by
  by_contra hb
  have hpa : p a = true := by simpa using hb
  rw [List.dropWhile_cons_of_pos hpa] at h
  have := length_dropWhile_le p x
  rw [h] at this
  simp at this

theorem dropWhile_eq_self_of_prefixed {α : Type} (p : α → Bool) (l m : List α)
    (hp : m <+: l) (hl : l.dropWhile p = l) : m.dropWhile p = m := by
  cases m with
  | nil => rfl
  | cons a t =>
    obtain ⟨rest, hrest⟩ := hp
    have hl2 : List.dropWhile p (a :: (t ++ rest)) = a :: (t ++ rest) := by
      rw [← List.cons_append, hrest]
      exact hl
    have ha : p a = false := head_false_of_dropWhile_eq_self p a (t ++ rest) hl2
    rw [List.dropWhile_cons_of_neg (by simp [ha])]

theorem dropWhile_length_eq {α : Type} (p : α → Bool) (l : List α)
    (h : (l.dropWhile p).length = l.length) : l.dropWhile p = l :=
  (dropWhile_isSuffix p l).eq_of_length h

theorem strip_eq_self_split (u : Str) (h : strip u = u) :
    u.dropWhile isSpaceChar = u ∧ u.reverse.dropWhile isSpaceChar = u.reverse := by
  have h1 : (u.dropWhile isSpaceChar).length = u.length := by
    have hle1 := length_dropWhile_le isSpaceChar u
    have hle2 := length_dropWhile_le isSpaceChar (u.dropWhile isSpaceChar).reverse
    simp only [List.length_reverse] at hle2
    have : (strip u).length = u.length := by rw [h]
    unfold strip at this
    simp only [List.length_reverse] at this
    omega
  have h2 : u.dropWhile isSpaceChar = u := dropWhile_length_eq isSpaceChar u h1
  refine ⟨h2, ?_⟩
  unfold strip at h
  rw [h2] at h
  have := congrArg List.reverse h
  rw [List.reverse_reverse] at this
  exact this

theorem strip_of_both (u : Str) (h1 : u.dropWhile isSpaceChar = u)
    (h2 : u.reverse.dropWhile isSpaceChar = u.reverse) : strip u = u := by
  unfold strip
  rw [h1, h2, List.reverse_reverse]

theorem strip_idem (s : Str) : strip (strip s) = strip s := by
  apply strip_of_both
  · -- strip s is a prefix of dropWhile isSpaceChar s, which is left-stripped
    have hpre : strip s <+: s.dropWhile isSpaceChar := by
      unfold strip
      rw [← List.reverse_suffix]
      simp only [List.reverse_reverse]
      exact dropWhile_isSuffix isSpaceChar (s.dropWhile isSpaceChar).reverse
    exact dropWhile_eq_self_of_prefixed isSpaceChar _ _ hpre (dropWhile_self isSpaceChar s)
  · unfold strip
    rw [List.reverse_reverse]
    exact dropWhile_self isSpaceChar (s.dropWhile isSpaceChar).reverse

theorem comp_space_upper : (isSpaceChar ∘ toUpperCh) = isSpaceChar := by
  funext c
  exact isSpace_toUpperCh c

theorem dropWhile_space_map_upper (l : Str) :
    (l.map toUpperCh).dropWhile isSpaceChar =
      (l.dropWhile isSpaceChar).map toUpperCh := by
  rw [List.dropWhile_map, comp_space_upper]

theorem strip_upperStr (s : Str) : strip (upperStr s) = upperStr (strip s) := by
  unfold strip upperStr
  rw [dropWhile_space_map_upper, ← List.map_reverse, dropWhile_space_map_upper,
    ← List.map_reverse]

theorem upperStr_idem (s : Str) : upperStr (upperStr s) = upperStr s := by
  unfold upperStr
  rw [List.map_map]
  exact List.map_congr_left (fun c _ => toUpperCh_idem c)

theorem upper_strip_fix (x : Str) :
    upperStr (strip (upperStr (strip x))) = upperStr (strip x) := by
  rw [strip_upperStr, strip_idem, upperStr_idem]

theorem strip_all_digits (d : Str) (h : ∀ c ∈ d, isDigitCh c = true) :
    strip d = d := by
  apply strip_of_both
  · cases d with
    | nil => rfl
    | cons a t =>
      rw [List.dropWhile_cons_of_neg
        (by simp [isDigit_notSpace a (h a (by simp))])]
  · cases hd : d.reverse with
    | nil => simp
    | cons a t =>
      have ha : a ∈ d := by
        rw [← List.mem_reverse, hd]
        simp
      rw [List.dropWhile_cons_of_neg (by simp [isDigit_notSpace a (h a ha)])]

theorem upper_all_digits (d : Str) (h : ∀ c ∈ d, isDigitCh c = true) :
    upperStr d = d := by
  unfold upperStr
  exact (List.map_congr_left (fun c hc => toUpperCh_digit c (h c hc))).trans
    (List.map_id d)

theorem pyTitleAux_space_profile (s : Str) :
    ∀ b, (pyTitleAux b s).map isSpaceChar = s.map isSpaceChar := by
  induction s with
  | nil => intro b; rfl
  | cons c cs ih =>
    intro b
    simp only [pyTitleAux, List.map_cons, isSpace_titleChar, ih]

theorem pyTitleAux_idem (s : Str) :
    ∀ b, pyTitleAux b (pyTitleAux b s) = pyTitleAux b s := by
  induction s with
  | nil => intro b; rfl
  | cons c cs ih =>
    intro b
    simp only [pyTitleAux, titleChar_idem, isAlpha_titleChar, ih]

theorem dropWhile_eq_self_of_profile (p : Char → Bool) (l₁ l₂ : Str)
    (hp : l₁.map p = l₂.map p) (h : l₂.dropWhile p = l₂) :
    l₁.dropWhile p = l₁ := by
  cases l₁ with
  | nil => rfl
  | cons a t =>
    cases l₂ with
    | nil => simp at hp
    | cons b u =>
      simp only [List.map_cons, List.cons.injEq] at hp
      have hb : p b = false := head_false_of_dropWhile_eq_self p b u h
      rw [List.dropWhile_cons_of_neg (by simp [hp.1, hb])]

theorem title_strip_fixed (u : Str) (hu : strip u = u) (b : Bool) :
    strip (pyTitleAux b u) = pyTitleAux b u := by
  obtain ⟨h1, h2⟩ := strip_eq_self_split u hu
  apply strip_of_both
  · exact dropWhile_eq_self_of_profile isSpaceChar _ u (pyTitleAux_space_profile u b) h1
  · apply dropWhile_eq_self_of_profile isSpaceChar _ u.reverse _ h2
    rw [List.map_reverse, List.map_reverse, pyTitleAux_space_profile]

theorem title_strip_fix (y : Str) :
    pyTitle (strip (pyTitle (strip y))) = pyTitle (strip y) := by
  unfold pyTitle
  rw [title_strip_fixed (strip y) (strip_idem y) false]
  exact pyTitleAux_idem (strip y) false

/-! ## Luhn: left-to-right source form equals right-to-left spec form -/

theorem luhnSum_append_single (p : Nat) (d : Nat) (l : List Nat) :
    ∀ i, luhnSum p i (l ++ [d]) = luhnSum p i l +
      (if (i + l.length) % 2 = p then (if d * 2 > 9 then d * 2 - 9 else d * 2)
       else d) := by
  induction l with
  | nil => intro i; simp [luhnSum]
  | cons c t ih =>
    intro i
    simp only [List.cons_append, luhnSum, List.append_eq]
    rw [ih (i + 1)]
    have h3 : i + 1 + t.length = i + (c :: t).length := by
      simp [List.length_cons]
      omega
    rw [h3, Nat.add_assoc]

theorem luhnSumFromRight_eq (r : List Nat) :
    ∀ j, luhnSumFromRight j r = luhnSum ((r.length + j + 1) % 2) 0 r.reverse := by
  induction r with
  | nil => intro j; rfl
  | cons d t ih =>
    intro j
    simp only [luhnSumFromRight, List.reverse_cons, List.length_cons]
    rw [luhnSum_append_single, ih (j + 1)]
    have hp : (t.length + (j + 1) + 1) % 2 = (t.length + 1 + j + 1) % 2 := by
      omega
    rw [hp]
    have hlen : (0 + t.reverse.length) % 2 = t.length % 2 := by
      simp
    rw [hlen]
    by_cases hj : j % 2 = 0
    · have hc : t.length % 2 = (t.length + 1 + j + 1) % 2 := by omega
      rw [if_pos hj, if_pos hc]
      exact Nat.add_comm _ _
    · have hc : ¬(t.length % 2 = (t.length + 1 + j + 1) % 2) := by omega
      rw [if_neg hj, if_neg hc]
      exact Nat.add_comm _ _

theorem luhn_check_eq_fromRight (s : Str) :
    luhn_check_digit s = luhnCheckFromRight s := by
  unfold luhn_check_digit luhnCheckFromRight
  rw [luhnSumFromRight_eq ((s.map digitVal).reverse) 0]
  simp

/-! ## Python max: first maximal element -/

theorem pyMax_spec (xs : List ZMember) :
    ∀ a : ZMember,
      (pyMax a xs = a ∧ ∀ x ∈ xs, x.file_size ≤ a.file_size) ∨
      (∃ l₁ l₂, xs = l₁ ++ pyMax a xs :: l₂ ∧
        a.file_size < (pyMax a xs).file_size ∧
        (∀ x ∈ l₁, x.file_size < (pyMax a xs).file_size) ∧
        ∀ x ∈ xs, x.file_size ≤ (pyMax a xs).file_size) := by
  induction xs with
  | nil =>
    intro a
    left
    exact ⟨rfl, by simp⟩
  | cons z t ih =>
    intro a
    by_cases hz : z.file_size > a.file_size
    · have hstep : pyMax a (z :: t) = pyMax z t := by
        simp only [pyMax, if_pos hz]
      rw [hstep]
      rcases ih z with ⟨h1, h2⟩ | ⟨l₁, l₂, heq, hlt, hsm, hmax⟩
      · right
        refine ⟨[], t, ?_, ?_, by simp, ?_⟩
        · rw [h1]
          simp
        · rw [h1]
          exact hz
        · intro x hx
          rw [h1]
          rcases List.mem_cons.mp hx with rfl | hx'
          · exact Nat.le_refl _
          · exact h2 x hx'
      · right
        refine ⟨z :: l₁, l₂, ?_, ?_, ?_, ?_⟩
        · rw [List.cons_append, ← heq]
        · exact Nat.lt_trans hz hlt
        · intro x hx
          rcases List.mem_cons.mp hx with rfl | hx'
          · exact hlt
          · exact hsm x hx'
        · intro x hx
          rcases List.mem_cons.mp hx with rfl | hx'
          · exact Nat.le_of_lt hlt
          · exact hmax x hx'
    · have hstep : pyMax a (z :: t) = pyMax a t := by
        simp only [pyMax, if_neg hz]
      rw [hstep]
      rcases ih a with ⟨h1, h2⟩ | ⟨l₁, l₂, heq, hlt, hsm, hmax⟩
      · left
        refine ⟨h1, ?_⟩
        intro x hx
        rcases List.mem_cons.mp hx with rfl | hx'
        · omega
        · exact h2 x hx'
      · right
        refine ⟨z :: l₁, l₂, ?_, hlt, ?_, ?_⟩
        · rw [List.cons_append, ← heq]
        · intro x hx
          rcases List.mem_cons.mp hx with rfl | hx'
          · omega
          · exact hsm x hx'
        · intro x hx
          rcases List.mem_cons.mp hx with rfl | hx'
          · omega
          · exact hmax x hx'

theorem maxBySize_first_max (l : List ZMember) (h : l ≠ []) :
    ∃ c l₁ l₂, maxBySize l = some c ∧ l = l₁ ++ c :: l₂ ∧
      (∀ x ∈ l₁, x.file_size < c.file_size) ∧
      ∀ x ∈ l, x.file_size ≤ c.file_size := by
  cases l with
  | nil => exact absurd rfl h
  | cons x xs =>
    rcases pyMax_spec xs x with ⟨h1, h2⟩ | ⟨l₁, l₂, heq, _hlt, hsm, hmax⟩
    · refine ⟨pyMax x xs, [], xs, rfl, ?_, by simp, ?_⟩
      · rw [h1]
        simp
      · intro y hy
        rw [h1]
        rcases List.mem_cons.mp hy with rfl | hy'
        · exact Nat.le_refl _
        · exact h2 y hy'
    · refine ⟨pyMax x xs, x :: l₁, l₂, rfl, ?_, ?_, ?_⟩
      · rw [List.cons_append, ← heq]
      · intro y hy
        rcases List.mem_cons.mp hy with rfl | hy'
        · exact _hlt
        · exact hsm y hy'
      · intro y hy
        rcases List.mem_cons.mp hy with rfl | hy'
        · exact Nat.le_of_lt _hlt
        · exact hmax y hy'

/-! ## drop_duplicates lemmas -/

theorem dropDupAux_sub (l : List RawRow) :
    ∀ (seen : List (Option Str)) (r : RawRow), r ∈ dropDupAux seen l → r ∈ l := by
  induction l with
  | nil =>
    intro seen r hr
    simp [dropDupAux] at hr
  | cons a t ih =>
    intro seen r hr
    simp only [dropDupAux] at hr
    by_cases hc : a.code ∈ seen
    · rw [if_pos hc] at hr
      exact List.mem_cons_of_mem a (ih seen r hr)
    · rw [if_neg hc] at hr
      rcases List.mem_cons.mp hr with heq | h2
      · rw [heq]
        exact List.mem_cons_self _ _
      · exact List.mem_cons_of_mem a (ih _ r h2)

theorem dropDupAux_nodup (l : List RawRow) :
    ∀ seen : List (Option Str),
      ((dropDupAux seen l).map RawRow.code).Nodup ∧
      ∀ r ∈ dropDupAux seen l, r.code ∉ seen := by
  induction l with
  | nil =>
    intro seen
    exact ⟨List.nodup_nil, by simp [dropDupAux]⟩
  | cons a t ih =>
    intro seen
    simp only [dropDupAux]
    by_cases hc : a.code ∈ seen
    · rw [if_pos hc]
      exact ih seen
    · rw [if_neg hc]
      obtain ⟨h1, h2⟩ := ih (a.code :: seen)
      refine ⟨?_, ?_⟩
      · simp only [List.map_cons, List.nodup_cons]
        refine ⟨?_, h1⟩
        intro hmem
        obtain ⟨r, hr, hrc⟩ := List.mem_map.mp hmem
        exact (h2 r hr) (by rw [hrc]; exact List.mem_cons_self _ _)
      · intro r hr
        rcases List.mem_cons.mp hr with rfl | h3
        · exact hc
        · intro hrs
          exact (h2 r h3) (List.mem_cons_of_mem _ hrs)

theorem dropDupAux_eq_self (l : List RawRow) :
    ∀ seen : List (Option Str), (l.map RawRow.code).Nodup →
      (∀ r ∈ l, r.code ∉ seen) → dropDupAux seen l = l := by
  induction l with
  | nil => intro _ _ _; rfl
  | cons a t ih =>
    intro seen hnd hns
    simp only [List.map_cons, List.nodup_cons] at hnd
    simp only [dropDupAux, if_neg (hns a (by simp))]
    congr 1
    apply ih
    · exact hnd.2
    · intro r hr hmem
      rcases List.mem_cons.mp hmem with heq | hmem2
      · exact hnd.1 (by rw [← heq]; exact List.mem_map_of_mem _ hr)
      · exact hns r (List.mem_cons_of_mem a hr) hmem2

theorem nodup_getD_of_nodup (l : List RawRow)
    (hn : (l.map RawRow.code).Nodup) (hs : ∀ r ∈ l, r.code.isSome = true) :
    (l.map (fun r => r.code.getD [])).Nodup := by
  induction l with
  | nil => simp
  | cons a t ih =>
    simp only [List.map_cons, List.nodup_cons] at hn ⊢
    refine ⟨?_, ih hn.2 (fun r hr => hs r (List.mem_cons_of_mem a hr))⟩
    intro hmem
    obtain ⟨r, hr, hrc⟩ := List.mem_map.mp hmem
    apply hn.1
    obtain ⟨x, hx⟩ := Option.isSome_iff_exists.mp (hs a (by simp))
    obtain ⟨y, hy⟩ := Option.isSome_iff_exists.mp
      (hs r (List.mem_cons_of_mem a hr))
    refine List.mem_map.mpr ⟨r, hr, ?_⟩
    rw [hy, hx]
    rw [hx, hy] at hrc
    simpa using hrc

/-! ## Claim theorems -/

theorem firstSuccess_none (u : Str) (raw : Pth)
    (prefer exclude : Option (Str → Bool)) :
    ∀ rs : List (Option HttpResponse),
      (∀ r ∈ rs, processAttempt u raw prefer exclude r = none) →
      firstSuccess u raw prefer exclude rs = none := by
  intro rs
  induction rs with
  | nil => intro _; rfl
  | cons r t ih =>
    intro h
    simp only [firstSuccess, h r (by simp)]
    exact ih (fun x hx => h x (List.mem_cons_of_mem r hx))

/-- C1: when an effective URL exists and every one of the download
attempts fails (network error, bad status, empty body, or an unreadable /
empty zip — all of which make `processAttempt` return `none`), no
per-attempt failure terminates the call: after exhaustion `ensure_file`
returns the pre-existing local path unchanged when one exists, and fails
only when it does not. -/
theorem ensure_file_exhausted_falls_back
    (raw : Pth) (env url_override : Option Str)
    (prefer exclude : Option (Str → Bool))
    (responses : List (Option HttpResponse)) (localExists : Bool) (u : Str)
    (hu : effective_url env url_override = some u)
    (hf : ∀ r ∈ responses, processAttempt u raw prefer exclude r = none) :
    ensure_file raw env url_override prefer exclude responses localExists =
      if localExists then .localFile raw else .notFound := by
  have hfs := firstSuccess_none u raw prefer exclude responses hf
  simp only [ensure_file, hu, hfs]

/-- Witness for C1 at a concrete call: three failed attempts, local file
present, returns the local path. -/
theorem ensure_file_exhausted_falls_back_witness :
    ensure_file ⟨"input/hcpcs_codes_2024".data, ".csv".data⟩
      (some "http://example.com/a.csv".data) none none none
      [none, none, none] true =
      .localFile ⟨"input/hcpcs_codes_2024".data, ".csv".data⟩ := by
  have h := ensure_file_exhausted_falls_back
    ⟨"input/hcpcs_codes_2024".data, ".csv".data⟩
    (some "http://example.com/a.csv".data) none none none
    [none, none, none] true "http://example.com/a.csv".data
    (by rfl)
    (by
      intro r hr
      simp only [List.mem_cons, List.not_mem_nil, or_false] at hr
      rcases hr with rfl | rfl | rfl <;> rfl)
  simpa using h

/-- C3: the effective URL is the environment variable's value whenever it
is set and non-empty; otherwise the supplied override/resolved URL when
that is non-empty; and no URL when neither is available.  A set, non-empty
environment value wins over any override, including a HEAD-probed one. -/
theorem effective_url_precedence :
    (∀ (e : Str) (url_override : Option Str), e ≠ [] →
      effective_url (some e) url_override = some e) ∧
    (∀ (env : Option Str) (u : Str), env.getD [] = [] → u ≠ [] →
      effective_url env (some u) = some u) ∧
    (∀ env url_override : Option Str,
      env.getD [] = [] → url_override.getD [] = [] →
      effective_url env url_override = none) := by
  refine ⟨?_, ?_, ?_⟩
  · intro e url_override he
    simp [effective_url, he]
  · intro env u henv hu
    simp [effective_url, henv, hu]
  · intro env url_override henv hov
    simp [effective_url, henv, hov]

/-- Witness for C3: environment value beats a probe-produced override;
the override is used when the environment is unset; no URL otherwise. -/
theorem effective_url_precedence_witness :
    effective_url (some "http://env.example/x.csv".data)
      (some "http://probed.example/y.csv".data) =
      some "http://env.example/x.csv".data ∧
    effective_url none (some "http://probed.example/y.csv".data) =
      some "http://probed.example/y.csv".data ∧
    effective_url (some []) none = none := by
  refine ⟨?_, ?_, ?_⟩
  · exact effective_url_precedence.1 _ _ (by decide)
  · exact effective_url_precedence.2.1 none _ (by rfl) (by decide)
  · exact effective_url_precedence.2.2 (some []) none (by rfl) (by rfl)

/-- C9 counterexample: with every HEAD probe failing, both year-probing
resolvers return the current-year (first) candidate URL, which differs
from the final candidate in the probing sequence (the previous year's
URL). -/
theorem resolver_fallback_counterexample :
    resolve_default_icd10cm_url 2026 (fun _ => .exn) = icd10cm_url 2026 ∧
    icd10cm_url 2026 ≠ icd10cm_url 2025 ∧
    resolve_default_hcpcs_url 2026 (fun _ => .exn) = hcpcs_url 2026 ∧
    hcpcs_url 2026 ≠ hcpcs_url 2025 := by
  refine ⟨rfl, by decide, rfl, by decide⟩

/-- C9 amended: each resolver returns the first candidate (current year,
then previous year) whose HEAD probe succeeds, and when no candidate
probes successfully it falls back to the current-year (first) candidate —
not the final one — always returning some URL. -/
theorem resolver_first_ok_else_current :
    (∀ (y : Nat) (probe : Str → ProbeResult),
      probe (icd10cm_url y) = .status true →
      resolve_default_icd10cm_url y probe = icd10cm_url y) ∧
    (∀ (y : Nat) (probe : Str → ProbeResult),
      probe (icd10cm_url y) ≠ .status true →
      probe (icd10cm_url (y - 1)) = .status true →
      resolve_default_icd10cm_url y probe = icd10cm_url (y - 1)) ∧
    (∀ (y : Nat) (probe : Str → ProbeResult),
      probe (icd10cm_url y) ≠ .status true →
      probe (icd10cm_url (y - 1)) ≠ .status true →
      resolve_default_icd10cm_url y probe = icd10cm_url y) ∧
    (∀ (y : Nat) (probe : Str → ProbeResult),
      probe (hcpcs_url y) = .status true →
      resolve_default_hcpcs_url y probe = hcpcs_url y) ∧
    (∀ (y : Nat) (probe : Str → ProbeResult),
      probe (hcpcs_url y) ≠ .status true →
      probe (hcpcs_url (y - 1)) = .status true →
      resolve_default_hcpcs_url y probe = hcpcs_url (y - 1)) ∧
    (∀ (y : Nat) (probe : Str → ProbeResult),
      probe (hcpcs_url y) ≠ .status true →
      probe (hcpcs_url (y - 1)) ≠ .status true →
      resolve_default_hcpcs_url y probe = hcpcs_url y) := by
  refine ⟨?_, ?_, ?_, ?_, ?_, ?_⟩
  · intro y probe h
    unfold resolve_default_icd10cm_url
    rw [h]
  · intro y probe h1 h2
    unfold resolve_default_icd10cm_url
    rw [h2]
    cases hp : probe (icd10cm_url y) with
    | exn => rfl
    | status ok =>
      cases ok with
      | false => rfl
      | true => exact absurd hp h1
  · intro y probe h1 h2
    unfold resolve_default_icd10cm_url
    cases hp : probe (icd10cm_url y) with
    | exn =>
      cases hq : probe (icd10cm_url (y - 1)) with
      | exn => rfl
      | status ok =>
        cases ok with
        | false => rfl
        | true => exact absurd hq h2
    | status ok =>
      cases ok with
      | false =>
        cases hq : probe (icd10cm_url (y - 1)) with
        | exn => rfl
        | status ok2 =>
          cases ok2 with
          | false => rfl
          | true => exact absurd hq h2
      | true => exact absurd hp h1
  · intro y probe h
    unfold resolve_default_hcpcs_url
    rw [h]
  · intro y probe h1 h2
    unfold resolve_default_hcpcs_url
    rw [h2]
    cases hp : probe (hcpcs_url y) with
    | exn => rfl
    | status ok =>
      cases ok with
      | false => rfl
      | true => exact absurd hp h1
  · intro y probe h1 h2
    unfold resolve_default_hcpcs_url
    cases hp : probe (hcpcs_url y) with
    | exn =>
      cases hq : probe (hcpcs_url (y - 1)) with
      | exn => rfl
      | status ok =>
        cases ok with
        | false => rfl
        | true => exact absurd hq h2
    | status ok =>
      cases ok with
      | false =>
        cases hq : probe (hcpcs_url (y - 1)) with
        | exn => rfl
        | status ok2 =>
          cases ok2 with
          | false => rfl
          | true => exact absurd hq h2
      | true => exact absurd hp h1

/-- Witness for the amended C9: a probe that accepts only the previous
year's URL makes the resolver return that URL. -/
theorem resolver_first_ok_else_current_witness :
    resolve_default_icd10cm_url 2026
      (fun u => if u = icd10cm_url 2025 then .status true else .exn) =
      icd10cm_url 2025 := by
  exact resolver_first_ok_else_current.2.1 2026 _
    (by decide) (by decide)

/-- C10: `is_valid_npi` rejects every non-string input; on strings it
first strips every non-digit, so validity depends only on the digit
subsequence — a string whose digits form a valid 10-digit NPI is accepted
even when the original string is not itself 10 digits. -/
theorem is_valid_npi_strips_nondigits :
    is_valid_npi .nonstr = false ∧
    (∀ s : Str, is_valid_npi (.str s) =
      is_valid_npi (.str (stripNonDigits s))) ∧
    is_valid_npi (.str "123-456-7893".data) = true := by
  refine ⟨rfl, ?_, by decide⟩
  intro s
  have h : stripNonDigits (stripNonDigits s) = stripNonDigits s := by
    simp [stripNonDigits, List.filter_filter]
  simp only [is_valid_npi, h]

/-- C6: for every 10-digit string, `is_valid_npi` accepts it exactly when
the Luhn check digit — computed right-to-left with the doubling parity
the spec describes (`luhnCheckFromRight`) — over the 14-digit string
`"80840"` + first nine digits equals the value of the tenth digit. -/
theorem is_valid_npi_luhn_iff (s : Str) (hlen : s.length = 10)
    (hdig : ∀ c ∈ s, isDigitCh c = true) :
    is_valid_npi (.str s) = true ↔
      luhnCheckFromRight (['8', '0', '8', '4', '0'] ++ s.take 9) =
        digitVal (s.getLastD '0') := by
  have hfilter : stripNonDigits s = s := List.filter_eq_self.mpr hdig
  have hbridge := luhn_check_eq_fromRight (['8', '0', '8', '4', '0'] ++ s.take 9)
  simp only [is_valid_npi, hfilter, hlen, if_pos, hbridge, decide_eq_true_eq]

/-- Witness for C6 at the NPI `1234567893`. -/
theorem is_valid_npi_luhn_iff_witness :
    is_valid_npi (.str "1234567893".data) = true :=
  (is_valid_npi_luhn_iff "1234567893".data (by decide) (by decide)).mpr (by decide)

/-- C4: when the filters leave a non-empty candidate set, the selected
member is the first element of maximal byte size in that set (everything
before it is strictly smaller, everything in the set is no larger); in
particular the spec's header/data example selects `data_20240101.csv`. -/
theorem zip_selects_largest_first :
    (∀ (members : List ZMember) (prefer exclude : Option (Str → Bool)),
      filteredCandidates members prefer exclude ≠ [] →
      ∃ c l₁ l₂,
        maxBySize (zipCandidates members prefer exclude) = some c ∧
        filteredCandidates members prefer exclude = l₁ ++ c :: l₂ ∧
        (∀ x ∈ l₁, x.file_size < c.file_size) ∧
        ∀ x ∈ filteredCandidates members prefer exclude,
          x.file_size ≤ c.file_size) ∧
    maxBySize (zipCandidates
      [⟨"header.csv".data, 10, false⟩, ⟨"data_20240101.csv".data, 50000, false⟩]
      none (some (containsSub "header".data))) =
      some ⟨"data_20240101.csv".data, 50000, false⟩ := by
  constructor
  · intro members prefer exclude hne
    have hz : zipCandidates members prefer exclude =
        filteredCandidates members prefer exclude := by
      simp only [zipCandidates]
      rw [if_neg hne]
    rw [hz]
    exact maxBySize_first_max _ hne
  · decide

/-- Witness for C4 at the spec's example archive. -/
theorem zip_selects_largest_first_witness :
    ∃ c l₁ l₂,
      maxBySize (zipCandidates
        [⟨"header.csv".data, 10, false⟩,
         ⟨"data_20240101.csv".data, 50000, false⟩]
        none (some (containsSub "header".data))) = some c ∧
      filteredCandidates
        [⟨"header.csv".data, 10, false⟩,
         ⟨"data_20240101.csv".data, 50000, false⟩]
        none (some (containsSub "header".data)) = l₁ ++ c :: l₂ ∧
      (∀ x ∈ l₁, x.file_size < c.file_size) ∧
      ∀ x ∈ filteredCandidates
        [⟨"header.csv".data, 10, false⟩,
         ⟨"data_20240101.csv".data, 50000, false⟩]
        none (some (containsSub "header".data)),
        x.file_size ≤ c.file_size :=
  zip_selects_largest_first.1 _ none (some (containsSub "header".data))
    (by decide)

/-- C5: an include pattern that matches none of the textual candidates is
a no-op; when the filters leave nothing, extraction falls back to the full
member list, and on a non-empty archive a member is always selected
(no error is raised). -/
theorem zip_filter_fallback :
    (∀ (members : List ZMember) (p : Str → Bool)
        (exclude : Option (Str → Bool)),
      (members.filter (fun zi => is_textual zi.filename)).filter
        (fun zi => p zi.filename) = [] →
      filteredCandidates members (some p) exclude =
        filteredCandidates members none exclude) ∧
    (∀ (members : List ZMember) (prefer exclude : Option (Str → Bool)),
      filteredCandidates members prefer exclude = [] →
      zipCandidates members prefer exclude = members) ∧
    (∀ (members : List ZMember) (prefer exclude : Option (Str → Bool)),
      members ≠ [] →
      ∃ c, maxBySize (zipCandidates members prefer exclude) = some c) := by
  refine ⟨?_, ?_, ?_⟩
  · intro members p exclude hempty
    simp only [filteredCandidates, hempty]
    simp
  · intro members prefer exclude h
    simp only [zipCandidates, h]
    simp
  · intro members prefer exclude hne
    by_cases h : filteredCandidates members prefer exclude = []
    · have hz : zipCandidates members prefer exclude = members := by
        simp only [zipCandidates, h]
        simp
      rw [hz]
      cases members with
      | nil => exact absurd rfl hne
      | cons x xs => exact ⟨pyMax x xs, rfl⟩
    · have hz : zipCandidates members prefer exclude =
          filteredCandidates members prefer exclude := by
        simp only [zipCandidates]
        rw [if_neg h]
      obtain ⟨c, l₁, l₂, hm, _, _, _⟩ := maxBySize_first_max _ h
      rw [hz]
      exact ⟨c, hm⟩

/-- Witness for C5: a non-matching include pattern is a no-op, and a zip
with only a non-textual member still yields a selection via the
full-list fallback. -/
theorem zip_filter_fallback_witness :
    filteredCandidates [⟨"data.csv".data, 5, false⟩]
      (some (containsSub "nomatch".data)) none =
      filteredCandidates [⟨"data.csv".data, 5, false⟩] none none ∧
    zipCandidates [⟨"readme.md".data, 7, false⟩] none none =
      [⟨"readme.md".data, 7, false⟩] ∧
    ∃ c, maxBySize (zipCandidates [⟨"readme.md".data, 7, false⟩] none none) =
      some c := by
  refine ⟨?_, ?_, ?_⟩
  · exact zip_filter_fallback.1 _ _ none (by decide)
  · exact zip_filter_fallback.2.1 _ none none (by decide)
  · exact zip_filter_fallback.2.2 _ none none (by decide)

/-! ## C2: sizes of the files a successful acquisition returns -/

theorem processAttempt_direct_pos (u : Str) (raw : Pth)
    (prefer exclude : Option (Str → Bool)) (r : Option HttpResponse)
    (t : Pth) (w : Nat)
    (h : processAttempt u raw prefer exclude r = some (.directWrite t w)) :
    0 < w := by
  cases r with
  | none => simp [processAttempt] at h
  | some resp =>
    simp only [processAttempt] at h
    split at h
    · exact absurd h (by simp)
    · split at h
      · exact absurd h (by simp)
      · rename_i hok hsz
        split at h
        · split at h
          · exact absurd h (by simp)
          · split at h
            · exact absurd h (by simp)
            · split at h
              · exact absurd h (by simp)
              · simp at h
        · simp only [Option.some.injEq] at h
          have hw : w = resp.bodySize := by
            cases h
            rfl
          rw [hw]
          omega

theorem processAttempt_zip_size (u : Str) (raw : Pth)
    (prefer exclude : Option (Str → Bool)) (r : Option HttpResponse)
    (t : Pth) (w : Nat) (ch : ZMember)
    (h : processAttempt u raw prefer exclude r = some (.zipExtract t w ch)) :
    w = ch.file_size := by
  cases r with
  | none => simp [processAttempt] at h
  | some resp =>
    simp only [processAttempt] at h
    split at h
    · exact absurd h (by simp)
    · split at h
      · exact absurd h (by simp)
      · split at h
        · split at h
          · exact absurd h (by simp)
          · split at h
            · exact absurd h (by simp)
            · split at h
              · exact absurd h (by simp)
              · rename_i chosen hchosen
                simp only [Option.some.injEq] at h
                cases h
                rfl
        · simp at h

theorem firstSuccess_direct_pos (u : Str) (raw : Pth)
    (prefer exclude : Option (Str → Bool)) :
    ∀ (rs : List (Option HttpResponse)) (t : Pth) (w : Nat),
      firstSuccess u raw prefer exclude rs = some (.directWrite t w) →
      0 < w := by
  intro rs
  induction rs with
  | nil =>
    intro t w h
    simp [firstSuccess] at h
  | cons r rest ih =>
    intro t w h
    simp only [firstSuccess] at h
    cases hp : processAttempt u raw prefer exclude r with
    | some o =>
      rw [hp] at h
      simp only [Option.some.injEq] at h
      rw [h] at hp
      exact processAttempt_direct_pos u raw prefer exclude r t w hp
    | none =>
      rw [hp] at h
      exact ih t w h

theorem firstSuccess_zip_size (u : Str) (raw : Pth)
    (prefer exclude : Option (Str → Bool)) :
    ∀ (rs : List (Option HttpResponse)) (t : Pth) (w : Nat) (ch : ZMember),
      firstSuccess u raw prefer exclude rs = some (.zipExtract t w ch) →
      w = ch.file_size := by
  intro rs
  induction rs with
  | nil =>
    intro t w ch h
    simp [firstSuccess] at h
  | cons r rest ih =>
    intro t w ch h
    simp only [firstSuccess] at h
    cases hp : processAttempt u raw prefer exclude r with
    | some o =>
      rw [hp] at h
      simp only [Option.some.injEq] at h
      rw [h] at hp
      exact processAttempt_zip_size u raw prefer exclude r t w ch hp
    | none =>
      rw [hp] at h
      exact ih t w ch h

theorem ensure_file_cases (raw : Pth) (env url_override : Option Str)
    (prefer exclude : Option (Str → Bool))
    (responses : List (Option HttpResponse)) (localExists : Bool) :
    (∃ u o, effective_url env url_override = some u ∧
      firstSuccess u raw prefer exclude responses = some o ∧
      ensure_file raw env url_override prefer exclude responses localExists =
        .downloaded o) ∨
    ensure_file raw env url_override prefer exclude responses localExists =
      if localExists then .localFile raw else .notFound := by
  cases hu : effective_url env url_override with
  | none =>
    right
    simp only [ensure_file, hu]
  | some u =>
    cases hf : firstSuccess u raw prefer exclude responses with
    | some o =>
      left
      exact ⟨u, o, rfl, hf, by simp only [ensure_file, hu, hf]⟩
    | none =>
      right
      simp only [ensure_file, hu, hf]

/-- C2 counterexample: a successful acquisition can return a path holding
an empty file.  A zip archive whose only (textual) member has zero bytes
is downloaded and "extracted" successfully — the write copies the
member's 0 bytes — so the returned path refers to an empty file. -/
theorem ensure_file_returns_empty_file :
    ensure_file ⟨"input/data".data, ".csv".data⟩
      (some "http://host/archive.zip".data) none none none
      [some { okStatus := true, bodySize := 100,
              contentType := "application/zip".data,
              zipEntries := some [⟨"data.csv".data, 0, false⟩],
              cdFilename := none }] false =
      .downloaded (.zipExtract ⟨"input/data".data, ".csv".data⟩ 0
        ⟨"data.csv".data, 0, false⟩) := by
  decide

/-- C2 amended: on every successful return the returned path holds the
file the call just produced or found: a direct download wrote the
response body and is non-empty (the empty-body check ran); a zip
extraction wrote exactly the chosen member's bytes, which may be zero;
the local-file fallback returns `raw_path` only when a file exists there,
with no emptiness check. -/
theorem ensure_file_success_shape
    (raw : Pth) (env url_override : Option Str)
    (prefer exclude : Option (Str → Bool))
    (responses : List (Option HttpResponse)) (localExists : Bool) :
    (∀ t w, ensure_file raw env url_override prefer exclude responses
        localExists = .downloaded (.directWrite t w) → 0 < w) ∧
    (∀ t w ch, ensure_file raw env url_override prefer exclude responses
        localExists = .downloaded (.zipExtract t w ch) →
      w = ch.file_size) ∧
    (∀ p, ensure_file raw env url_override prefer exclude responses
        localExists = .localFile p → p = raw ∧ localExists = true) := by
  rcases ensure_file_cases raw env url_override prefer exclude responses
      localExists with ⟨u, o, _hu, hf, heq⟩ | heq
  · refine ⟨?_, ?_, ?_⟩
    · intro t w h
      rw [heq] at h
      simp only [EnsureResult.downloaded.injEq] at h
      rw [h] at hf
      exact firstSuccess_direct_pos u raw prefer exclude responses t w hf
    · intro t w ch h
      rw [heq] at h
      simp only [EnsureResult.downloaded.injEq] at h
      rw [h] at hf
      exact firstSuccess_zip_size u raw prefer exclude responses t w ch hf
    · intro p h
      rw [heq] at h
      simp at h
  · refine ⟨?_, ?_, ?_⟩
    · intro t w h
      rw [heq] at h
      cases localExists <;> simp at h
    · intro t w ch h
      rw [heq] at h
      cases localExists <;> simp at h
    · intro p h
      rw [heq] at h
      cases localExists
      · simp at h
      · simp at h
        exact ⟨h.symm, rfl⟩

/-- Witness for the amended C2: a concrete direct download of five bytes
returns a non-empty file, via the theorem. -/
theorem ensure_file_success_shape_witness :
    ensure_file ⟨"input/data".data, ".csv".data⟩
      (some "http://host/data.csv".data) none none none
      [some { okStatus := true, bodySize := 5,
              contentType := "text/csv".data,
              zipEntries := none, cdFilename := none }] false =
      .downloaded (.directWrite ⟨"input/data".data, ".csv".data⟩ 5) ∧
    0 < 5 := by
  constructor
  · decide
  · exact (ensure_file_success_shape ⟨"input/data".data, ".csv".data⟩
      (some "http://host/data.csv".data) none none none
      [some { okStatus := true, bodySize := 5,
              contentType := "text/csv".data,
              zipEntries := none, cdFilename := none }] false).1
      ⟨"input/data".data, ".csv".data⟩ 5 (by decide)

/-! ## Cleaning-stage helper lemmas -/

theorem validate_hcpcs_valid_mem (rows : List RawRow) (v : RawRow)
    (h : v ∈ (validate_hcpcs_data rows).1) :
    ∃ r ∈ rows, v.code = some (upperStr (strip (cellStr r.code))) ∧
      v.description = r.description ∧
      isHcpcsCode (upperStr (strip (cellStr r.code))) = true := by
  unfold validate_hcpcs_data at h
  have h1 := List.mem_filter.mp h
  obtain ⟨r, hr, hrv⟩ := List.mem_map.mp h1.1
  refine ⟨r, hr, ?_, ?_, ?_⟩
  · rw [← hrv]
  · rw [← hrv]
  · have h2 := h1.2
    rw [← hrv] at h2
    simpa using h2

theorem validate_npi_valid_mem (rows : List NpiRawRow) (v : NpiRawRow)
    (h : v ∈ (validate_npi_data rows).1) :
    ∃ r ∈ rows, v.npi = some (stripNonDigits (cellStr r.npi)) ∧
      v.builtDesc = r.builtDesc ∧
      npiValidMask (stripNonDigits (cellStr r.npi)) = true := by
  unfold validate_npi_data at h
  have h1 := List.mem_filter.mp h
  obtain ⟨r, hr, hrv⟩ := List.mem_map.mp h1.1
  refine ⟨r, hr, ?_, ?_, ?_⟩
  · rw [← hrv]
  · rw [← hrv]
  · have h2 := h1.2
    rw [← hrv] at h2
    simpa using h2

theorem clean_hcpcs_mem (ts : Str) (rows : List RawRow) (out : CleanRow)
    (h : out ∈ clean_hcpcs_data ts rows) :
    ∃ r ∈ rows, out.code = upperStr (strip (cellStr r.code)) ∧
      out.description = pyTitle (strip (cellStr r.description)) ∧
      out.last_updated = ts := by
  unfold clean_hcpcs_data at h
  obtain ⟨v, hv, hout⟩ := List.mem_map.mp h
  have hv2 := dropDupAux_sub _ [] v hv
  have hv3 := (List.mem_filter.mp hv2).1
  obtain ⟨r, hr, hrv⟩ := List.mem_map.mp hv3
  refine ⟨r, hr, ?_, ?_, ?_⟩ <;> rw [← hout, ← hrv] <;> rfl

theorem clean_hcpcs_nodup (ts : Str) (rows : List RawRow) :
    ((clean_hcpcs_data ts rows).map CleanRow.code).Nodup := by
  unfold clean_hcpcs_data
  rw [List.map_map]
  apply nodup_getD_of_nodup
  · exact (dropDupAux_nodup _ []).1
  · intro r hr
    have h1 := dropDupAux_sub _ [] r hr
    have h2 := (List.mem_filter.mp h1).2
    exact (Bool.and_eq_true_iff.mp h2).1

theorem clean_npi_mem (ts : Str) (rows : List NpiRawRow) (out : CleanRow)
    (h : out ∈ clean_npi_data ts rows) :
    ∃ r ∈ rows, out.code = upperStr (strip (cellStr r.npi)) ∧
      out.description = pyTitle (strip r.builtDesc) ∧
      out.description ≠ [] ∧ out.last_updated = ts := by
  unfold clean_npi_data at h
  obtain ⟨v, hv, hout⟩ := List.mem_map.mp h
  have hv4 := dropDupAux_sub _ [] v hv
  have hv4f := List.mem_filter.mp hv4
  obtain ⟨u, hu, huv⟩ := List.mem_map.mp hv4f.1
  have hu2 := List.mem_filter.mp hu
  obtain ⟨w, hw, hwu⟩ := List.mem_map.mp hu2.1
  obtain ⟨r, hr, hrw⟩ := List.mem_map.mp hw
  -- u is the basic_cleanup of w; v replaces an empty description by none
  have hucode : u.code = some (upperStr (strip (cellStr w.code))) := by
    rw [← hwu]
  have hudesc : u.description = some (pyTitle (strip (cellStr w.description))) := by
    rw [← hwu]
  have hwcode : w.code = r.npi := by rw [← hrw]
  have hwdesc : w.description = some r.builtDesc := by rw [← hrw]
  -- v.description is u.description, which is not `some []`
  have hvdesc : v.description = u.description ∧ u.description ≠ some [] := by
    rw [← huv]
    cases hud : u.description with
    | none =>
      refine ⟨?_, by simp⟩
      simp [hud]
    | some d =>
      cases d with
      | nil =>
        exfalso
        have hvnone : v.description = none := by
          rw [← huv]
          simp [hud]
        have hsome := hv4f.2
        rw [hvnone] at hsome
        simp at hsome
      | cons c cs =>
        refine ⟨?_, by simp [hud]⟩
        simp [hud]
  have hvcode : v.code = u.code := by
    rw [← huv]
  have hvd : v.description = some (pyTitle (strip r.builtDesc)) := by
    rw [hvdesc.1, hudesc, hwdesc]
    rfl
  have hnonempty : pyTitle (strip r.builtDesc) ≠ [] := by
    intro hc
    apply hvdesc.2
    rw [hudesc, hwdesc]
    show some (pyTitle (strip r.builtDesc)) = some []
    rw [hc]
  refine ⟨r, hr, ?_, ?_, ?_, ?_⟩
  · rw [← hout]
    show v.code.getD [] = upperStr (strip (cellStr r.npi))
    rw [hvcode, hucode, hwcode]
    rfl
  · rw [← hout]
    show v.description.getD [] = pyTitle (strip r.builtDesc)
    rw [hvd]
    rfl
  · rw [← hout]
    show v.description.getD [] ≠ []
    rw [hvd]
    simpa using hnonempty
  · rw [← hout]

theorem clean_npi_nodup (ts : Str) (rows : List NpiRawRow) :
    ((clean_npi_data ts rows).map CleanRow.code).Nodup := by
  unfold clean_npi_data
  rw [List.map_map]
  apply nodup_getD_of_nodup
  · exact (dropDupAux_nodup _ []).1
  · intro v hv
    have h1 := dropDupAux_sub _ [] v hv
    have h1f := List.mem_filter.mp h1
    obtain ⟨u, hu, huv⟩ := List.mem_map.mp h1f.1
    have hu2 := List.mem_filter.mp hu
    rw [← huv]
    exact hu2.2

theorem strip_pyTitle_strip (y : Str) :
    strip (pyTitle (strip y)) = pyTitle (strip y) :=
  title_strip_fixed (strip y) (strip_idem y) false

/-- C7 counterexample: a validated HCPCS row whose description is only
whitespace survives cleaning with an empty description, so "description
is non-empty after trimming" fails for the normalized output. -/
theorem clean_hcpcs_empty_description :
    clean_hcpcs_data "2024-01-01T00:00:00+00:00".data
      (validate_hcpcs_data [⟨some "a0428".data, some "   ".data⟩]).1 =
      [⟨"A0428".data, [], "2024-01-01T00:00:00+00:00".data⟩] := by
  decide

/-- C7 amended: in every normalized output, each code is a
trimmed-uppercased fixed point that matches the active family pattern,
and codes are unique; descriptions are non-empty after trimming in the
NPI stage, while the HCPCS stage can emit empty descriptions. -/
theorem clean_output_invariants :
    (∀ (ts : Str) (rows : List RawRow),
      (∀ out ∈ clean_hcpcs_data ts (validate_hcpcs_data rows).1,
        isHcpcsCode out.code = true ∧ upperStr (strip out.code) = out.code) ∧
      ((clean_hcpcs_data ts (validate_hcpcs_data rows).1).map
        CleanRow.code).Nodup) ∧
    (∀ (ts : Str) (rows : List NpiRawRow),
      (∀ out ∈ clean_npi_data ts (validate_npi_data rows).1,
        npiValidMask out.code = true ∧ upperStr (strip out.code) = out.code ∧
          strip out.description ≠ []) ∧
      ((clean_npi_data ts (validate_npi_data rows).1).map
        CleanRow.code).Nodup) := by
  refine ⟨?_, ?_⟩
  · intro ts rows
    refine ⟨?_, clean_hcpcs_nodup ts _⟩
    intro out hout
    obtain ⟨v, hvmem, hcode, _hdesc, _⟩ := clean_hcpcs_mem ts _ out hout
    obtain ⟨r, _hr, hvcode, _, hpat⟩ := validate_hcpcs_valid_mem rows v hvmem
    have hc : out.code = upperStr (strip (cellStr r.code)) := by
      rw [hcode, hvcode]
      exact upper_strip_fix _
    constructor
    · rw [hc]
      exact hpat
    · rw [hc]
      exact upper_strip_fix _
  · intro ts rows
    refine ⟨?_, clean_npi_nodup ts _⟩
    intro out hout
    obtain ⟨v, hvmem, hcode, hdesc, hdne, _⟩ := clean_npi_mem ts _ out hout
    obtain ⟨r, _hr, hvnpi, _hbd, hmask⟩ := validate_npi_valid_mem rows v hvmem
    have hdall : ∀ c ∈ stripNonDigits (cellStr r.npi), isDigitCh c = true := by
      intro c hcm
      exact (List.mem_filter.mp hcm).2
    have hd : out.code = stripNonDigits (cellStr r.npi) := by
      rw [hcode, hvnpi]
      show upperStr (strip (stripNonDigits (cellStr r.npi))) = _
      rw [strip_all_digits _ hdall, upper_all_digits _ hdall]
    refine ⟨?_, ?_, ?_⟩
    · rw [hd]
      exact hmask
    · rw [hd, strip_all_digits _ hdall, upper_all_digits _ hdall]
    · rw [hdesc, strip_pyTitle_strip]
      rw [hdesc] at hdne
      exact hdne

/-- Witness for the amended C7 at a concrete HCPCS run. -/
theorem clean_output_invariants_witness :
    isHcpcsCode ((⟨"A0428".data, "Desc".data, "t0".data⟩ : CleanRow).code) =
      true ∧
    upperStr (strip ((⟨"A0428".data, "Desc".data, "t0".data⟩ :
      CleanRow).code)) =
      (⟨"A0428".data, "Desc".data, "t0".data⟩ : CleanRow).code :=
  (clean_output_invariants.1 "t0".data
    [⟨some "a0428".data, some "desc".data⟩]).1
    ⟨"A0428".data, "Desc".data, "t0".data⟩ (by decide)

/-- C8 counterexample: a record that passes HCPCS validation with a
whitespace-only description is normalized to an empty description, so the
"non-empty description" half of the round-trip claim fails. -/
theorem clean_hcpcs_roundtrip_empty_description :
    clean_hcpcs_data "2024-02-02T00:00:00+00:00".data
      (validate_hcpcs_data [⟨some " b1234 ".data, some "	".data⟩]).1 =
      [⟨"B1234".data, [], "2024-02-02T00:00:00+00:00".data⟩] := by
  decide

/-- C8 amended: every normalized record's code is the trimmed-uppercased
input code and its description is the title-cased trimmed input
description (possibly empty); and normalization is idempotent — running
`clean_hcpcs_data` on its own output (with the same timestamp) returns
the output unchanged, so no duplicates appear and the row count is
stable. -/
theorem clean_roundtrip_idempotent :
    (∀ (ts : Str) (rows : List RawRow),
      ∀ out ∈ clean_hcpcs_data ts (validate_hcpcs_data rows).1,
        ∃ r ∈ rows, out.code = upperStr (strip (cellStr r.code)) ∧
          out.description = pyTitle (strip (cellStr r.description))) ∧
    (∀ (ts : Str) (rows : List RawRow),
      clean_hcpcs_data ts ((clean_hcpcs_data ts rows).map
        (fun r => { code := some r.code, description := some r.description })) =
      clean_hcpcs_data ts rows) := by
  constructor
  · intro ts rows out hout
    obtain ⟨v, hvmem, hcode, hdesc, _⟩ := clean_hcpcs_mem ts _ out hout
    obtain ⟨r, hr, hvcode, hvdesc, _⟩ := validate_hcpcs_valid_mem rows v hvmem
    refine ⟨r, hr, ?_, ?_⟩
    · rw [hcode, hvcode]
      exact upper_strip_fix _
    · rw [hdesc, hvdesc]
  · intro ts rows
    have hmem : ∀ o ∈ clean_hcpcs_data ts rows,
        (∃ x, o.code = upperStr (strip x)) ∧
        (∃ y, o.description = pyTitle (strip y)) ∧ o.last_updated = ts := by
      intro o ho
      obtain ⟨r, _, h1, h2, h3⟩ := clean_hcpcs_mem ts rows o ho
      exact ⟨⟨_, h1⟩, ⟨_, h2⟩, h3⟩
    have hnodup0 := clean_hcpcs_nodup ts rows
    generalize hG : clean_hcpcs_data ts rows = out
    rw [hG] at hmem hnodup0
    have hA : basic_cleanup (out.map
        (fun r => { code := some r.code, description := some r.description })) =
        out.map
          (fun r => { code := some r.code, description := some r.description }) := by
      unfold basic_cleanup
      rw [List.map_map]
      apply List.map_congr_left
      intro o ho
      obtain ⟨⟨x, hx⟩, ⟨y, hy⟩, _⟩ := hmem o ho
      show ({ code := some (upperStr (strip o.code)),
              description := some (pyTitle (strip o.description)) } : RawRow) =
        ({ code := some o.code, description := some o.description } : RawRow)
      have h1 : upperStr (strip o.code) = o.code := by
        rw [hx]
        exact upper_strip_fix x
      have h2 : pyTitle (strip o.description) = o.description := by
        rw [hy]
        exact title_strip_fix y
      rw [h1, h2]
    have hnod : ((out.map
        (fun r => ({ code := some r.code, description := some r.description } :
          RawRow))).map RawRow.code).Nodup := by
      rw [List.map_map]
      have h1 := List.Nodup.map (Option.some_injective Str) hnodup0
      rw [List.map_map] at h1
      exact h1
    have hB : ((out.map
        (fun r => ({ code := some r.code, description := some r.description } :
          RawRow))).filter (fun r => r.code.isSome && r.description.isSome)) =
        out.map
          (fun r => { code := some r.code, description := some r.description }) := by
      apply List.filter_eq_self.mpr
      intro a ha
      obtain ⟨o, _, rfl⟩ := List.mem_map.mp ha
      rfl
    have hC : dropDupAux [] (out.map
        (fun r => ({ code := some r.code, description := some r.description } :
          RawRow))) =
        out.map
          (fun r => { code := some r.code, description := some r.description }) := by
      apply dropDupAux_eq_self _ [] hnod
      intro r _ hmem2
      simp at hmem2
    have hunfold : clean_hcpcs_data ts (out.map
        (fun r => { code := some r.code, description := some r.description })) =
        (dropDupAux [] ((basic_cleanup (out.map
          (fun r => { code := some r.code, description := some r.description }))).filter
          (fun r => r.code.isSome && r.description.isSome))).map
          (fun r =>
            ({ code := r.code.getD [], description := r.description.getD [],
               last_updated := ts } : CleanRow)) := rfl
    rw [hunfold, hA, hB, hC, List.map_map]
    have hf : ∀ o ∈ out,
        ((fun r =>
          ({ code := r.code.getD [], description := r.description.getD [],
             last_updated := ts } : CleanRow)) ∘
          (fun r => ({ code := some r.code, description := some r.description } :
            RawRow))) o = id o := by
      intro o ho
      obtain ⟨_, _, hts⟩ := hmem o ho
      show ({ code := o.code, description := o.description,
              last_updated := ts } : CleanRow) = o
      cases o with
      | mk c d l =>
        simp only at hts
        rw [hts]
    rw [List.map_congr_left hf, List.map_id]

/-- Witness for the amended C8 round-trip at a concrete validated row. -/
theorem clean_roundtrip_idempotent_witness :
    ∃ r ∈ [(⟨some " b1234 ".data, some " two words ".data⟩ : RawRow)],
      (⟨"B1234".data, "Two Words".data, "t0".data⟩ : CleanRow).code =
        upperStr (strip (cellStr r.code)) ∧
      (⟨"B1234".data, "Two Words".data, "t0".data⟩ : CleanRow).description =
        pyTitle (strip (cellStr r.description)) :=
  clean_roundtrip_idempotent.1 "t0".data _ _ (by decide)
